import Mathlib

/-!
Verification of the vector-path kernel (`src/Paths.ts` of react-native-redash).

The TypeScript source is embedded shallowly:
* JavaScript numbers are modelled as `ℚ` (exact arithmetic; every claim checked
  here is about control flow, structure, or exact values at breakpoints).
* JavaScript exceptions are modelled by `Except PathError`: the explicitly thrown
  `Error("Paths to interpolate are not symetrical")` is `PathError.asymmetricPaths`;
  the `TypeError` raised by reading a property of `undefined` (out-of-range index,
  `[].reduce` with no initial value) is `PathError.undefinedAccess` resp.
  `PathError.emptyPath`.
* The external collaborators (the SVG tokenizer/normalizer pipeline and the
  scalar `interpolate` of react-native-reanimated) and the repository file
  `src/Math.ts` (`cubicBezierYForX`), which is not part of the provided sources,
  are modelled from the specification at their documented interfaces; each such
  definition is marked in its doc comment.
-/

namespace Redash

/-- Point with `x`/`y` components (source interface `Vector` of `src/Vectors.ts`). -/
structure Vector where
  x : ℚ
  y : ℚ
deriving DecidableEq, Repr

/-- Source enum `SVGCommand { MOVE, CURVE, CLOSE }`. -/
inductive SVGCommand where
  | MOVE
  | CURVE
  | CLOSE
deriving DecidableEq, Repr

/-- Source tagged union `Segment = Close | Curve | Move`.  The constructors double
as the source builder functions `move(x, y)`, `curve({c1, c2, to, from})` and
`close()`.  `curve` stores the source `Curve` fields `from` (named `from'`,
as `from` is reserved), `c1`, `c2`, `to`. -/
inductive Segment where
  | move (x y : ℚ)
  | curve (from' c1 c2 to' : Vector)
  | close
deriving DecidableEq, Repr

/-- Source `Path = Segment[]`. -/
abbrev Path := List Segment

/-- Tag of a segment (the source `type` field). -/
def kindOf : Segment → SVGCommand
  | .move _ _ => .MOVE
  | .curve _ _ _ _ => .CURVE
  | .close => .CLOSE

/-- Source type guard `isMove`. -/
def isMove (s : Segment) : Bool :=
  kindOf s = SVGCommand.MOVE

/-- Source type guard `isCurve`. -/
def isCurve (s : Segment) : Bool :=
  kindOf s = SVGCommand.CURVE

/-- Source type guard `isClose`. -/
def isClose (s : Segment) : Bool :=
  kindOf s = SVGCommand.CLOSE

/-- Failure modes of the kernel, modelling the JavaScript exceptions:
`emptyPath` is the `TypeError` of `[].reduce` with no initial value (the spec
error name `EmptyPath`); `asymmetricPaths` is the explicitly thrown
`Error("Paths to interpolate are not symetrical")` (the spec name
`AsymmetricPaths`); `undefinedAccess` is the `TypeError` of reading a property
of `undefined`, e.g. `isMove(p[index])` with `index` out of range. -/
inductive PathError where
  | emptyPath
  | asymmetricPaths
  | undefinedAccess
deriving DecidableEq, Repr

/-- Decidable equality of results, used to evaluate the kernel at concrete
inputs. -/
instance {ε α : Type _} [DecidableEq ε] [DecidableEq α] : DecidableEq (Except ε α) := fun x y =>
  match x, y with
  | .ok a, .ok b =>
    if h : a = b then .isTrue (by rw [h]) else .isFalse (by intro hc; cases hc; exact h rfl)
  | .error a, .error b =>
    if h : a = b then .isTrue (by rw [h]) else .isFalse (by intro hc; cases hc; exact h rfl)
  | .ok _, .error _ => .isFalse (by intro hc; cases hc)
  | .error _, .ok _ => .isFalse (by intro hc; cases hc)

/-- Source `serializeMove`: the template literal `M${c.x},${c.y} `. -/
def serializeMove (x y : ℚ) : String :=
  "M" ++ toString x ++ "," ++ toString y ++ " "

/-- Source `serializeClose`. -/
def serializeClose : String :=
  "Z"

/-- Source `serializeCurve`: `C${c.c1.x},${c.c1.y} ${c.c2.x},${c.c2.y} ${c.to.x},${c.to.y} `;
the `from` field is not read. -/
def serializeCurve (c1 c2 to' : Vector) : String :=
  "C" ++ toString c1.x ++ "," ++ toString c1.y ++ " " ++
    toString c2.x ++ "," ++ toString c2.y ++ " " ++
    toString to'.x ++ "," ++ toString to'.y ++ " "

/-- The per-segment dispatch of `serialize` (the `isMove`/`isCurve`/`isClose`
if-chain; the `exhaustiveCheck` fallthrough is unreachable for the closed
union, which the exhaustive match shows). -/
def serializeSegment : Segment → String
  | .move x y => serializeMove x y
  | .curve _ c1 c2 to' => serializeCurve c1 c2 to'
  | .close => serializeClose

/-- Source `serialize`: `path.map(...).reduce((acc, c) => acc + c)`.  JavaScript
`reduce` with no initial value throws on an empty array (`emptyPath`) and
otherwise folds the tail starting from the head. -/
def serialize (path : Path) : Except PathError String :=
  match path.map serializeSegment with
  | [] => .error .emptyPath
  | s :: ss => .ok (ss.foldl (fun acc c => acc ++ c) s)

/-- Normalized draw commands delivered by the external
`parse-svg-path`/`abs-svg-path`/`normalize-svg-path` pipeline (spec section 6):
`["M", x, y]`, `["C", c1x, c1y, c2x, c2y, x, y]`, `["Z"]`. -/
inductive SVGNormCommand where
  | M (x y : ℚ)
  | C (c1x c1y c2x c2y x y : ℚ)
  | Z
deriving DecidableEq, Repr

/-- The `from` reconstruction of `parse` applied to `prev = segments[index - 1]`:
`none` models the `undefined` read at index 0, on which `prev[0]` throws a
`TypeError`; for `prev = ["M", x, y]` the source reads `prev[1]`/`prev[2]`;
otherwise it reads `prev[5]`/`prev[6]`, which for `prev = ["Z"]` are `undefined`
so the `?? 0` fallback yields `(0, 0)`. -/
def parseFrom : Option SVGNormCommand → Except PathError Vector
  | none => .error .undefinedAccess
  | some (.M x y) => .ok ⟨x, y⟩
  | some (.C _ _ _ _ x y) => .ok ⟨x, y⟩
  | some .Z => .ok ⟨0, 0⟩

/-- Body of the `segments.map((segment, index) => ...)` callback of `parse`. -/
def parseStep (segments : List SVGNormCommand) : Nat × SVGNormCommand → Except PathError Segment
  | (index, segment) =>
    match segment with
    | .M x y => .ok (Segment.move x y)
    | .Z => .ok Segment.close
    | .C c1x c1y c2x c2y x y =>
      (parseFrom (if index = 0 then none else segments[index - 1]?)).map fun fr =>
        Segment.curve fr ⟨c1x, c1y⟩ ⟨c2x, c2y⟩ ⟨x, y⟩

/-- Source `parse`, restricted to its adapter part: the external pipeline
(`normalizeSVG(absSVG(parseSVG(d)))`) is the black-box producer of the
normalized command list, and `parse` maps each command to a `Segment`,
reconstructing each curve's `from` from the command at `index - 1`. -/
def parse (segments : List SVGNormCommand) : Except PathError Path :=
  segments.enum.mapM (parseStep segments)

/-- Accumulator form of `parse` used in proofs: `prev` carries
`segments[index - 1]` (`none` at index 0).  `parse_eq_parseGo` shows the two
agree. -/
def parseGo (prev : Option SVGNormCommand) : List SVGNormCommand → Except PathError Path
  | [] => .ok []
  | cmd :: rest => do
    let seg ← (match cmd with
      | .M x y => Except.ok (Segment.move x y)
      | .Z => Except.ok Segment.close
      | .C c1x c1y c2x c2y x y =>
        (parseFrom prev).map fun fr =>
          Segment.curve fr ⟨c1x, c1y⟩ ⟨c2x, c2y⟩ ⟨x, y⟩)
    let segs ← parseGo (some cmd) rest
    pure (seg :: segs)

/-- Extrapolation policy.  The source only ever passes
`Animated.Extrapolate.CLAMP` (it is the defaulted parameter of
`interpolatePath`/`mixPath`), so clamping is the only modelled policy. -/
inductive Extrapolate where
  | clamp
deriving DecidableEq, Repr

/-- Linear interpolation on one bracketing pair of breakpoints. -/
def interp1 (value i0 i1 o0 o1 : ℚ) : ℚ :=
  if i1 - i0 = 0 then o0 else o0 + (value - i0) / (i1 - i0) * (o1 - o0)

/-- Modelled from the spec: the scalar interpolation primitive of the external
animation host (`interpolate` of react-native-reanimated), per spec section 4.5:
given `value`, an ascending `inputRange` and an equally long `outputRange`, find
the bracketing pair of breakpoints and linearly interpolate the corresponding
output pair; under the clamp policy a `value` outside the breakpoint range is
pinned to the nearest boundary output. -/
def interpolate (value : ℚ) : List ℚ → List ℚ → Extrapolate → ℚ
  | i0 :: i1 :: irest, o0 :: o1 :: orest, e =>
    if value ≤ i0 then o0
    else if value ≤ i1 then interp1 value i0 i1 o0 o1
    else interpolate value (i1 :: irest) (o1 :: orest) e
  | [_], [o0], _ => o0
  | _, _, _ => 0

/-- The `outputRange.map` gather of the Move branch of `interpolatePath`:
`const s = p[index]; if (isMove(s)) return {x: s.x, y: s.y}; throw ...`.
A missing segment (`undefined`) makes `isMove` throw a `TypeError` before the
explicit asymmetry error can be reached. -/
def gatherMovePoints (outputRange : List Path) (index : Nat) : Except PathError (List Vector) :=
  outputRange.mapM fun p =>
    match (p[index]? : Option Segment) with
    | some (.move x y) => .ok ⟨x, y⟩
    | some _ => .error .asymmetricPaths
    | none => .error .undefinedAccess

/-- The `{to, c1, c2}` record gathered per input path by the Curve branch of
`interpolatePath`. -/
structure CurvePoints where
  to' : Vector
  c1 : Vector
  c2 : Vector
deriving DecidableEq, Repr

/-- The `outputRange.map` gather of the Curve branch of `interpolatePath`. -/
def gatherCurvePoints (outputRange : List Path) (index : Nat) : Except PathError (List CurvePoints) :=
  outputRange.mapM fun p =>
    match (p[index]? : Option Segment) with
    | some (.curve _ c1 c2 to') => .ok ⟨to', c1, c2⟩
    | some _ => .error .asymmetricPaths
    | none => .error .undefinedAccess

/-- Body of the `outputRange[0].map((segment, index) => ...)` callback of
`interpolatePath`.  The blended Curve is built by the source as
`{type, to, c1, c2} as Curve` with no `from` field; the placeholder `(0, 0)`
stands for that absent field, which `serialize` never reads. -/
def interpolateSegment (value : ℚ) (inputRange : List ℚ) (outputRange : List Path)
    (extrapolate : Extrapolate) : Nat × Segment → Except PathError Segment
  | (index, segment) =>
    match segment with
    | .move _ _ =>
      (gatherMovePoints outputRange index).map fun points =>
        Segment.move (interpolate value inputRange (points.map (·.x)) extrapolate)
          (interpolate value inputRange (points.map (·.y)) extrapolate)
    | .curve _ _ _ _ =>
      (gatherCurvePoints outputRange index).map fun curves =>
        Segment.curve ⟨0, 0⟩
          ⟨interpolate value inputRange (curves.map (·.c1.x)) extrapolate,
           interpolate value inputRange (curves.map (·.c1.y)) extrapolate⟩
          ⟨interpolate value inputRange (curves.map (·.c2.x)) extrapolate,
           interpolate value inputRange (curves.map (·.c2.y)) extrapolate⟩
          ⟨interpolate value inputRange (curves.map (·.to'.x)) extrapolate,
           interpolate value inputRange (curves.map (·.to'.y)) extrapolate⟩
    | .close => .ok Segment.close

/-- The `const path = outputRange[0].map(...)` step of `interpolatePath`.
An empty `outputRange` makes `outputRange[0]` `undefined`, on which `.map`
throws a `TypeError`. -/
def interpolateSegments (value : ℚ) (inputRange : List ℚ) (outputRange : List Path)
    (extrapolate : Extrapolate) : Except PathError Path :=
  match outputRange with
  | [] => .error .undefinedAccess
  | p0 :: rest => p0.enum.mapM (interpolateSegment value inputRange (p0 :: rest) extrapolate)

/-- Source `interpolatePath`: blend the paths segment-wise over the first path
as structural template, then `serialize` the blended path. -/
def interpolatePath (value : ℚ) (inputRange : List ℚ) (outputRange : List Path)
    (extrapolate : Extrapolate) : Except PathError String := do
  let path ← interpolateSegments value inputRange outputRange extrapolate
  serialize path

/-- Source `mixPath`: `interpolatePath(value, [0, 1], [p1, p2], extrapolate)`. -/
def mixPath (value : ℚ) (p1 p2 : Path) (extrapolate : Extrapolate) : Except PathError String :=
  interpolatePath value [0, 1] [p1, p2] extrapolate

/-- The filter predicate of `getYForX`: keep curves whose x-span contains `x`
(`from.x > to.x` branch reversed, inclusive bounds), drop everything else. -/
def bracketFilter (x : ℚ) (c : Segment) : Bool :=
  match c with
  | .curve f _ _ t =>
    if f.x > t.x then decide (x ≥ t.x) && decide (x ≤ f.x)
    else decide (x ≥ f.x) && decide (x ≤ t.x)
  | _ => false

/-- Cubic Bézier coordinate value at parameter `t` with endpoints `p0`, `p3` and
control points `p1`, `p2`. -/
def cubicBezierValue (t p0 p1 p2 p3 : ℚ) : ℚ :=
  (1 - t) ^ 3 * p0 + 3 * (1 - t) ^ 2 * t * p1 + 3 * (1 - t) * t ^ 2 * p2 + t ^ 3 * p3

/-- Derivative in `t` of `cubicBezierValue`. -/
def cubicBezierDeriv (t p0 p1 p2 p3 : ℚ) : ℚ :=
  3 * (1 - t) ^ 2 * (p1 - p0) + 6 * (1 - t) * t * (p2 - p1) + 3 * t ^ 2 * (p3 - p2)

/-- Clamp a parameter into `[0, 1]`. -/
def clamp01 (t : ℚ) : ℚ :=
  max 0 (min 1 t)

/-- Bounded Newton iteration for the parameter `t` with `x(t) = x`, clamped into
`[0, 1]` at every step; a vanishing derivative stops the iteration at the
current (still clamped) parameter. -/
def newtonYForX : Nat → ℚ → ℚ → ℚ → ℚ → ℚ → ℚ → ℚ
  | 0, t, _, _, _, _, _ => t
  | fuel + 1, t, x, x0, x1, x2, x3 =>
    let d := cubicBezierDeriv t x0 x1 x2 x3
    if d = 0 then t
    else newtonYForX fuel (clamp01 (t - (cubicBezierValue t x0 x1 x2 x3 - x) / d)) x x0 x1 x2 x3

/-- Modelled from the spec: `cubicBezierYForX` of `src/Math.ts`, a repository
file that is not part of the provided sources (only its import and call site in
`src/Paths.ts` are).  Per spec section 4.4: a query exactly at `from.x` or
`to.x` returns `from.y` resp. `to.y` exactly (immediate boundary return, which
also covers the degenerate `from.x = to.x` span without reaching the solver);
otherwise a bounded Newton iteration from the bracketing midpoint guess solves
`x(t) = x` for `t` clamped into `[0, 1]` and returns `y(t)`. -/
def cubicBezierYForX (x : ℚ) (a c1 c2 b : Vector) : ℚ :=
  if x = a.x then a.y
  else if x = b.x then b.y
  else cubicBezierValue (newtonYForX 8 (1 / 2) x a.x c1.x c2.x b.x) a.y c1.y c2.y b.y

/-- Source `getYForX`: filter the path to bracketing curves, then
`if (isCurve(p[0])) return cubicBezierYForX(...); return 0`.  When the filtered
list is empty, `p[0]` is `undefined` and `isCurve(p[0])` throws a `TypeError`
(`undefinedAccess`); the `return 0` line is only reachable for a non-curve
`p[0]`, which the filter never lets through. -/
def getYForX (path : Path) (x : ℚ) : Except PathError ℚ :=
  let p := path.filter (bracketFilter x)
  match p[0]? with
  | none => .error .undefinedAccess
  | some s =>
    match s with
    | .curve f c1 c2 t => .ok (cubicBezierYForX x f c1 c2 t)
    | _ => .ok 0

/-- Replace a curve's `from` by the `(0, 0)` placeholder; identity on other
segments.  Blended curves produced by `interpolateSegment` carry exactly this
placeholder, and `serialize` is invariant under it. -/
def eraseFrom : Segment → Segment
  | .curve _ c1 c2 to' => .curve ⟨0, 0⟩ c1 c2 to'
  | s => s

/-- Structural alignment of one input path `p` against the template path (first
argument), as actually enforced by `interpolatePath`: a Move or Curve template
segment requires a present segment of the same kind at the same position in
`p`; a Close template segment is passed through with no check at all; positions
beyond the template's length are never inspected. -/
def alignedB : List Segment → List Segment → Bool
  | [], _ => true
  | .move _ _ :: t, p =>
    match p.head? with
    | some (.move _ _) => alignedB t p.tail
    | _ => false
  | .curve _ _ _ _ :: t, p =>
    match p.head? with
    | some (.curve _ _ _ _) => alignedB t p.tail
    | _ => false
  | .close :: t, p => alignedB t p.tail

/-- Head-of-path form of `gatherMovePoints` used by the lockstep recursion
`interpolateSegmentsZ`. -/
def gatherHeadMove (paths : List Path) : Except PathError (List Vector) :=
  paths.mapM fun p =>
    match p.head? with
    | some (.move x y) => .ok ⟨x, y⟩
    | some _ => .error .asymmetricPaths
    | none => .error .undefinedAccess

/-- Head-of-path form of `gatherCurvePoints` used by the lockstep recursion
`interpolateSegmentsZ`. -/
def gatherHeadCurve (paths : List Path) : Except PathError (List CurvePoints) :=
  paths.mapM fun p =>
    match p.head? with
    | some (.curve _ c1 c2 to') => .ok ⟨to', c1, c2⟩
    | some _ => .error .asymmetricPaths
    | none => .error .undefinedAccess

/-- Head-of-paths form of one `interpolateSegment` step, dispatching on the
template segment `s` and blending the heads of `paths`. -/
def blendHead (value : ℚ) (inputRange : List ℚ) (extrapolate : Extrapolate)
    (s : Segment) (paths : List Path) : Except PathError Segment :=
  match s with
  | .move _ _ =>
    (gatherHeadMove paths).map fun points =>
      Segment.move (interpolate value inputRange (points.map (·.x)) extrapolate)
        (interpolate value inputRange (points.map (·.y)) extrapolate)
  | .curve _ _ _ _ =>
    (gatherHeadCurve paths).map fun curves =>
      Segment.curve ⟨0, 0⟩
        ⟨interpolate value inputRange (curves.map (·.c1.x)) extrapolate,
         interpolate value inputRange (curves.map (·.c1.y)) extrapolate⟩
        ⟨interpolate value inputRange (curves.map (·.c2.x)) extrapolate,
         interpolate value inputRange (curves.map (·.c2.y)) extrapolate⟩
        ⟨interpolate value inputRange (curves.map (·.to'.x)) extrapolate,
         interpolate value inputRange (curves.map (·.to'.y)) extrapolate⟩
  | .close => Except.ok Segment.close

/-- Lockstep recursion equivalent to `interpolateSegments` (template consumed
head-first while every input path is popped in parallel); proofs about the
interpolator are done on this form and transported along
`interpolateSegments_eq_Z`. -/
def interpolateSegmentsZ (value : ℚ) (inputRange : List ℚ) (extrapolate : Extrapolate) :
    List Segment → List Path → Except PathError Path
  | [], _ => .ok []
  | s :: tmpl, paths => do
    let seg ← blendHead value inputRange extrapolate s paths
    let rest ← interpolateSegmentsZ value inputRange extrapolate tmpl (paths.map List.tail)
    pure (seg :: rest)

/-! Generic helpers about `Except` results and effectful maps. -/

theorem except_map_ok_iff {ε α β : Type _} (f : α → β) (e : Except ε α) (b : β) :
    e.map f = .ok b ↔ ∃ a, e = .ok a ∧ f a = b := by
  cases e <;> simp [Except.map]

theorem except_bind_ok_iff {ε α β : Type _} (e : Except ε α) (k : α → Except ε β) (b : β) :
    (e >>= k) = .ok b ↔ ∃ a, e = .ok a ∧ k a = .ok b := by
  cases e <;> simp [Bind.bind, Except.bind]

theorem except_bind_ok {ε α β : Type _} (a : α) (k : α → Except ε β) :
    ((Except.ok a : Except ε α) >>= k) = k a := rfl

theorem mapM_ok_iff {ε α β : Type _} (f : α → Except ε β) (l : List α) :
    (∃ ys, l.mapM f = .ok ys) ↔ ∀ x ∈ l, ∃ y, f x = .ok y := by
  induction l with
  | nil => exact ⟨fun _ x hx => absurd hx (List.not_mem_nil x), fun _ => ⟨[], rfl⟩⟩
  | cons a l ih =>
    rw [List.mapM_cons]
    constructor
    · rintro ⟨ys, hys⟩
      rw [except_bind_ok_iff] at hys
      obtain ⟨y, hy, hrest⟩ := hys
      rw [except_bind_ok_iff] at hrest
      obtain ⟨zs, hzs, -⟩ := hrest
      intro x hx
      rcases List.mem_cons.mp hx with h | h
      · exact ⟨y, h ▸ hy⟩
      · exact (ih.mp ⟨zs, hzs⟩) x h
    · intro h
      obtain ⟨y, hy⟩ := h a (List.mem_cons_self a l)
      obtain ⟨zs, hzs⟩ := ih.mpr fun x hx => h x (List.mem_cons_of_mem a hx)
      exact ⟨y :: zs, by rw [hy, except_bind_ok, hzs, except_bind_ok]; rfl⟩

theorem mapM_ok_of_forall {ε α β : Type _} {f : α → Except ε β} {g : α → β} :
    ∀ {l : List α}, (∀ x ∈ l, f x = .ok (g x)) → l.mapM f = .ok (l.map g)
  | [], _ => rfl
  | a :: l, h => by
    rw [List.mapM_cons, h a (List.mem_cons_self a l), except_bind_ok,
      mapM_ok_of_forall fun x hx => h x (List.mem_cons_of_mem a hx), except_bind_ok]
    rfl

theorem mapM_map_comp {ε α β γ : Type _} (g : α → β) (f : β → Except ε γ) :
    ∀ l : List α, (l.map g).mapM f = l.mapM (fun x => f (g x))
  | [] => rfl
  | a :: l => by
    rw [List.map_cons, List.mapM_cons, List.mapM_cons, mapM_map_comp g f l]

theorem mem_of_getLast?_eq_some {α : Type _} : ∀ {l : List α} {a : α},
    l.getLast? = some a → a ∈ l
  | [], a, h => by simp at h
  | [b], a, h => by
    simp [List.getLast?_singleton] at h
    simp [h]
  | b :: c :: l, a, h => by
    rw [List.getLast?_cons_cons] at h
    exact List.mem_cons_of_mem b (mem_of_getLast?_eq_some h)

/-! Facts about the scalar `interpolate` primitive. -/

theorem interpolate_le_head (value i0 : ℚ) (irest : List ℚ) (o0 : ℚ) (orest : List ℚ)
    (e : Extrapolate) (hlen : (i0 :: irest).length = (o0 :: orest).length) (hv : value ≤ i0) :
    interpolate value (i0 :: irest) (o0 :: orest) e = o0 := by
  cases irest with
  | nil =>
    cases orest with
    | nil => rfl
    | cons o1 os => simp at hlen
  | cons i1 is2 =>
    cases orest with
    | nil => simp at hlen
    | cons o1 os => rw [interpolate, if_pos hv]

theorem interp1_at_right (i0 i1 o0 o1 : ℚ) (h : i0 < i1) : interp1 i1 i0 i1 o0 o1 = o1 := by
  have hne : i1 - i0 ≠ 0 := sub_ne_zero.mpr (ne_of_gt h)
  rw [interp1, if_neg hne, div_self hne, one_mul]
  ring

theorem chain_lt_head_le_getLast : ∀ {a m : ℚ} {l : List ℚ},
    List.Chain' (· < ·) (a :: l) → (a :: l).getLast? = some m → a ≤ m
  | a, m, [], _, hm => by
    simp [List.getLast?_singleton] at hm
    simp [hm]
  | a, m, b :: l, hc, hm => by
    rw [List.chain'_cons] at hc
    rw [List.getLast?_cons_cons] at hm
    exact le_of_lt (lt_of_lt_of_le hc.1 (chain_lt_head_le_getLast hc.2 hm))

theorem interpolate_ge_last (value ilast olast : ℚ) (e : Extrapolate) :
    ∀ (input output : List ℚ), List.Chain' (· < ·) input → input.length = output.length →
      input.getLast? = some ilast → output.getLast? = some olast → ilast ≤ value →
      interpolate value input output e = olast
  | [], _, _, _, hi, _, _ => by simp at hi
  | [i0], output, _, hlen, hi, ho, _ => by
    cases output with
    | nil => simp at hlen
    | cons o0 orest =>
      cases orest with
      | nil =>
        simp [List.getLast?_singleton] at hi ho
        rw [interpolate, ho]
      | cons o1 os => simp at hlen
  | i0 :: i1 :: irest, output, hc, hlen, hi, ho, hv => by
    cases output with
    | nil => simp at hlen
    | cons o0 orest =>
      cases orest with
      | nil => simp at hlen
      | cons o1 os =>
        rw [List.chain'_cons] at hc
        rw [List.getLast?_cons_cons] at hi ho
        have h1last : i1 ≤ ilast := chain_lt_head_le_getLast hc.2 hi
        have h0 : ¬ value ≤ i0 :=
          not_le.mpr (lt_of_lt_of_le hc.1 (le_trans h1last hv))
        rw [interpolate, if_neg h0]
        cases irest with
        | nil =>
          cases os with
          | cons _ _ => simp at hlen
          | nil =>
            simp [List.getLast?_singleton] at hi ho
            subst hi
            subst ho
            by_cases hv1 : value ≤ i1
            · have hveq : value = i1 := le_antisymm hv1 hv
              rw [if_pos hv1, hveq, interp1_at_right i0 i1 o0 o1 hc.1]
            · rw [if_neg hv1, interpolate]
        | cons i2 irest2 =>
          have h2last : i2 ≤ ilast :=
            chain_lt_head_le_getLast hc.2.tail (by rwa [List.getLast?_cons_cons] at hi)
          have h1 : ¬ value ≤ i1 :=
            not_le.mpr (lt_of_lt_of_le (List.chain'_cons.mp hc.2).1 (le_trans h2last hv))
          rw [if_neg h1]
          exact interpolate_ge_last value ilast olast e (i1 :: i2 :: irest2) (o1 :: os)
            hc.2 (by simpa using hlen) hi ho hv

/-! The `parse` adapter: equivalence with the accumulator form and the
predecessor rule for the `from` reconstruction. -/

/-- The value `parse` assigns as `from` to a cubic whose predecessor command is
`prev`: a Move contributes its point, a cubic its endpoint, and `["Z"]` yields
`(0, 0)` through the `?? 0` fallback on the undefined reads `prev[5]`/`prev[6]`. -/
def fromOfPrev : SVGNormCommand → Vector
  | .M x y => ⟨x, y⟩
  | .C _ _ _ _ x y => ⟨x, y⟩
  | .Z => ⟨0, 0⟩

theorem parseFrom_some (prev : SVGNormCommand) :
    parseFrom (some prev) = .ok (fromOfPrev prev) := by
  cases prev <;> rfl

theorem parse_aux_eq (segments : List SVGNormCommand) :
    ∀ (t : List SVGNormCommand) (k : Nat), segments.drop k = t →
      (List.enumFrom k t).mapM (parseStep segments)
        = parseGo (if k = 0 then none else segments[k - 1]?) t
  | [], _, _ => rfl
  | cmd :: rest, k, hdrop => by
    have hk : segments[k]? = some cmd := by
      have h := List.getElem?_drop segments k 0
      rw [hdrop] at h
      simpa using h.symm
    have hdrop2 : segments.drop (k + 1) = rest := by
      have h1 : List.drop 1 (List.drop k segments) = List.drop (k + 1) segments :=
        List.drop_drop 1 k segments
      rw [← h1, hdrop, List.drop_one, List.tail_cons]
    have hrest := parse_aux_eq segments rest (k + 1) hdrop2
    rw [if_neg (Nat.succ_ne_zero k), Nat.add_sub_cancel, hk] at hrest
    rw [List.enumFrom_cons, List.mapM_cons, hrest]
    cases cmd <;> rfl

theorem parse_eq_parseGo (segments : List SVGNormCommand) :
    parse segments = parseGo none segments := by
  have h := parse_aux_eq segments segments 0 (List.drop_zero segments)
  exact h

theorem parseGo_cons (prev : Option SVGNormCommand) (cmd : SVGNormCommand)
    (rest : List SVGNormCommand) :
    parseGo prev (cmd :: rest) =
      (match cmd with
        | .M x y => Except.ok (Segment.move x y)
        | .Z => Except.ok Segment.close
        | .C c1x c1y c2x c2y x y =>
          (parseFrom prev).map fun fr =>
            Segment.curve fr ⟨c1x, c1y⟩ ⟨c2x, c2y⟩ ⟨x, y⟩) >>= fun seg =>
        parseGo (some cmd) rest >>= fun segs => pure (seg :: segs) := rfl

theorem parseGo_first_curve (c1x c1y c2x c2y x y : ℚ) (rest : List SVGNormCommand) :
    parseGo none (.C c1x c1y c2x c2y x y :: rest) = .error .undefinedAccess := rfl

/-- Through the match on `pre.getLast?`: the command preceding the distinguished
cubic, falling back to the accumulator argument when `pre` is empty. -/
theorem parseGo_from : ∀ (pre : List SVGNormCommand) (prev0 : Option SVGNormCommand)
    (c1x c1y c2x c2y x y : ℚ) (rest : List SVGNormCommand) (path : Path),
    parseGo prev0 (pre ++ .C c1x c1y c2x c2y x y :: rest) = .ok path →
    ∃ fr, parseFrom (match pre.getLast? with | some p => some p | none => prev0) = .ok fr ∧
      path[pre.length]? = some (.curve fr ⟨c1x, c1y⟩ ⟨c2x, c2y⟩ ⟨x, y⟩)
  | [], prev0, c1x, c1y, c2x, c2y, x, y, rest, path, h => by
    rw [List.nil_append, parseGo_cons] at h
    rw [except_bind_ok_iff] at h
    obtain ⟨seg, hseg, h2⟩ := h
    rw [except_bind_ok_iff] at h2
    obtain ⟨segs, hsegs, h3⟩ := h2
    rw [except_map_ok_iff] at hseg
    obtain ⟨fr, hfr, hmk⟩ := hseg
    refine ⟨fr, hfr, ?_⟩
    have hpath : path = seg :: segs := by
      have : (pure (seg :: segs) : Except PathError Path) = .ok (seg :: segs) := rfl
      rw [this] at h3
      exact (Except.ok.injEq _ _ ▸ h3).symm
    rw [hpath, ← hmk]
    simp
  | cmd :: pre2, prev0, c1x, c1y, c2x, c2y, x, y, rest, path, h => by
    rw [List.cons_append, parseGo_cons] at h
    rw [except_bind_ok_iff] at h
    obtain ⟨seg, hseg, h2⟩ := h
    rw [except_bind_ok_iff] at h2
    obtain ⟨segs, hsegs, h3⟩ := h2
    obtain ⟨fr, hfr, hidx⟩ :=
      parseGo_from pre2 (some cmd) c1x c1y c2x c2y x y rest segs hsegs
    have hpath : path = seg :: segs := by
      have hp : (pure (seg :: segs) : Except PathError Path) = .ok (seg :: segs) := rfl
      rw [hp] at h3
      exact (Except.ok.injEq _ _ ▸ h3).symm
    refine ⟨fr, ?_, ?_⟩
    · rw [← hfr]
      cases pre2 with
      | nil => rfl
      | cons q qs =>
        rw [List.getLast?_cons_cons, List.getLast?_eq_getLast (q :: qs) (by simp)]
    · rw [hpath]
      simpa [List.length_cons] using hidx

/-! Equivalence of `interpolateSegments` with the lockstep form
`interpolateSegmentsZ`. -/

theorem gatherHeadMove_drop (paths : List Path) (k : Nat) :
    gatherHeadMove (paths.map (List.drop k)) = gatherMovePoints paths k := by
  rw [gatherHeadMove, gatherMovePoints, mapM_map_comp]
  simp only [List.head?_drop]

theorem gatherHeadCurve_drop (paths : List Path) (k : Nat) :
    gatherHeadCurve (paths.map (List.drop k)) = gatherCurvePoints paths k := by
  rw [gatherHeadCurve, gatherCurvePoints, mapM_map_comp]
  simp only [List.head?_drop]

theorem interpolateSegmentsZ_cons (v : ℚ) (ir : List ℚ) (e : Extrapolate) (s : Segment)
    (tmpl : List Segment) (paths : List Path) :
    interpolateSegmentsZ v ir e (s :: tmpl) paths =
      blendHead v ir e s paths >>= fun seg =>
        interpolateSegmentsZ v ir e tmpl (paths.map List.tail) >>= fun rest =>
          pure (seg :: rest) := rfl

theorem interpolateSegment_eq_blendHead (v : ℚ) (ir : List ℚ) (e : Extrapolate)
    (paths : List Path) (k : Nat) (s : Segment) :
    interpolateSegment v ir paths e (k, s) = blendHead v ir e s (paths.map (List.drop k)) := by
  cases s <;>
    simp only [interpolateSegment, blendHead, gatherHeadMove_drop, gatherHeadCurve_drop]

theorem interpolateSegmentsZ_aux (v : ℚ) (ir : List ℚ) (e : Extrapolate) (paths : List Path) :
    ∀ (tmpl : List Segment) (k : Nat),
      (List.enumFrom k tmpl).mapM (interpolateSegment v ir paths e)
        = interpolateSegmentsZ v ir e tmpl (paths.map (List.drop k))
  | [], _ => rfl
  | s :: tmpl, k => by
    have hrest := interpolateSegmentsZ_aux v ir e paths tmpl (k + 1)
    have hmaps : (paths.map (List.drop k)).map List.tail = paths.map (List.drop (k + 1)) := by
      rw [List.map_map]
      apply List.map_congr_left
      intro p _
      show (List.drop k p).tail = List.drop (k + 1) p
      rw [← List.drop_one, List.drop_drop]
    rw [List.enumFrom_cons, List.mapM_cons, hrest, interpolateSegmentsZ_cons, hmaps,
      interpolateSegment_eq_blendHead]

theorem interpolateSegments_eq_Z (v : ℚ) (ir : List ℚ) (e : Extrapolate)
    (p0 : Path) (ps : List Path) :
    interpolateSegments v ir (p0 :: ps) e = interpolateSegmentsZ v ir e p0 (p0 :: ps) := by
  have h := interpolateSegmentsZ_aux v ir e (p0 :: ps) p0 0
  have hps : (p0 :: ps).map (List.drop 0) = p0 :: ps := by
    calc (p0 :: ps).map (List.drop 0) = (p0 :: ps).map (fun a => a) :=
          List.map_congr_left fun a _ => List.drop_zero a
      _ = p0 :: ps := List.map_id' _
  rw [hps] at h
  exact h

/-! Structural facts about the lockstep interpolation. -/

/-- The head of `p` exists and carries kind `k`. -/
def headIs (k : SVGCommand) (p : Path) : Bool :=
  match p.head? with
  | some s => kindOf s = k
  | none => false

theorem alignedB_cons_move (x y : ℚ) (t : List Segment) (p : Path) :
    alignedB (.move x y :: t) p = (headIs .MOVE p && alignedB t p.tail) := by
  cases p with
  | nil => rfl
  | cons hd tl => cases hd <;> simp [alignedB, headIs, kindOf]

theorem alignedB_cons_curve (f c1 c2 t' : Vector) (t : List Segment) (p : Path) :
    alignedB (.curve f c1 c2 t' :: t) p = (headIs .CURVE p && alignedB t p.tail) := by
  cases p with
  | nil => rfl
  | cons hd tl => cases hd <;> simp [alignedB, headIs, kindOf]

theorem alignedB_cons_close (t : List Segment) (p : Path) :
    alignedB (.close :: t) p = alignedB t p.tail := rfl

theorem except_map_ok_exists {ε α β : Type _} (f : α → β) (e : Except ε α) :
    (∃ b, e.map f = .ok b) ↔ ∃ a, e = .ok a := by
  cases e <;> simp [Except.map]

theorem bind2_ok_exists {ε α β γ : Type _} (e1 : Except ε α) (e2 : Except ε β) (f : α → β → γ) :
    (∃ q, (e1 >>= fun a => e2 >>= fun b => pure (f a b)) = .ok q) ↔
      (∃ a, e1 = .ok a) ∧ ∃ b, e2 = .ok b := by
  cases e1 <;> cases e2 <;> simp [Bind.bind, Except.bind, pure, Except.pure]

theorem gatherHeadMove_ok_exists (paths : List Path) :
    (∃ ys, gatherHeadMove paths = .ok ys) ↔ ∀ p ∈ paths, headIs .MOVE p = true := by
  rw [gatherHeadMove, mapM_ok_iff]
  constructor
  · intro h p hp
    obtain ⟨y, hy⟩ := h p hp
    cases p with
    | nil => simp at hy
    | cons hd tl => cases hd <;> simp_all [headIs, kindOf]
  · intro h p hp
    have := h p hp
    cases p with
    | nil => simp [headIs] at this
    | cons hd tl => cases hd <;> simp_all [headIs, kindOf]

theorem gatherHeadCurve_ok_exists (paths : List Path) :
    (∃ ys, gatherHeadCurve paths = .ok ys) ↔ ∀ p ∈ paths, headIs .CURVE p = true := by
  rw [gatherHeadCurve, mapM_ok_iff]
  constructor
  · intro h p hp
    obtain ⟨y, hy⟩ := h p hp
    cases p with
    | nil => simp at hy
    | cons hd tl => cases hd <;> simp_all [headIs, kindOf]
  · intro h p hp
    have := h p hp
    cases p with
    | nil => simp [headIs] at this
    | cons hd tl => cases hd <;> simp_all [headIs, kindOf]

theorem Z_ok_iff (v : ℚ) (ir : List ℚ) (e : Extrapolate) :
    ∀ (tmpl : List Segment) (paths : List Path),
      (∃ q, interpolateSegmentsZ v ir e tmpl paths = .ok q) ↔
        ∀ p ∈ paths, alignedB tmpl p = true
  | [], paths => by
    constructor
    · intro _ p _
      rfl
    · intro _
      exact ⟨[], rfl⟩
  | s :: tmpl, paths => by
    rw [interpolateSegmentsZ_cons v ir e s tmpl paths, bind2_ok_exists,
      Z_ok_iff v ir e tmpl (paths.map List.tail)]
    have htail : (∀ p2 ∈ paths.map List.tail, alignedB tmpl p2 = true) ↔
        ∀ p ∈ paths, alignedB tmpl p.tail = true := by
      constructor
      · intro h p hp
        exact h p.tail (List.mem_map.mpr ⟨p, hp, rfl⟩)
      · intro h p2 hp2
        obtain ⟨p, hp, rfl⟩ := List.mem_map.mp hp2
        exact h p hp
    rw [htail]
    cases s with
    | move x y =>
      rw [show blendHead v ir e (.move x y) paths = (gatherHeadMove paths).map _ from rfl,
        except_map_ok_exists, gatherHeadMove_ok_exists]
      simp only [alignedB_cons_move, Bool.and_eq_true]
      constructor
      · rintro ⟨h1, h2⟩ p hp
        exact ⟨h1 p hp, h2 p hp⟩
      · intro h
        exact ⟨fun p hp => (h p hp).1, fun p hp => (h p hp).2⟩
    | curve f c1 c2 t' =>
      rw [show blendHead v ir e (.curve f c1 c2 t') paths = (gatherHeadCurve paths).map _ from rfl,
        except_map_ok_exists, gatherHeadCurve_ok_exists]
      simp only [alignedB_cons_curve, Bool.and_eq_true]
      constructor
      · rintro ⟨h1, h2⟩ p hp
        exact ⟨h1 p hp, h2 p hp⟩
      · intro h
        exact ⟨fun p hp => (h p hp).1, fun p hp => (h p hp).2⟩
    | close =>
      simp only [alignedB_cons_close]
      constructor
      · rintro ⟨-, h⟩
        exact h
      · intro h
        exact ⟨⟨Segment.close, rfl⟩, h⟩

theorem pure_ok_inj {ε α : Type _} {a b : α} (h : (pure a : Except ε α) = .ok b) : a = b :=
  Except.ok.inj h

theorem blendHead_kind (v : ℚ) (ir : List ℚ) (e : Extrapolate) (s : Segment)
    (paths : List Path) (seg : Segment) (h : blendHead v ir e s paths = .ok seg) :
    kindOf seg = kindOf s := by
  cases s with
  | move x y =>
    simp only [blendHead] at h
    rw [except_map_ok_iff] at h
    obtain ⟨a, -, hseg⟩ := h
    rw [← hseg]
    rfl
  | curve f c1 c2 t' =>
    simp only [blendHead] at h
    rw [except_map_ok_iff] at h
    obtain ⟨a, -, hseg⟩ := h
    rw [← hseg]
    rfl
  | close =>
    simp only [blendHead] at h
    rw [← Except.ok.inj h]

theorem Z_shape (v : ℚ) (ir : List ℚ) (e : Extrapolate) :
    ∀ (tmpl : List Segment) (paths : List Path) (q : Path),
      interpolateSegmentsZ v ir e tmpl paths = .ok q → q.map kindOf = tmpl.map kindOf
  | [], _, q, h => by
    rw [← Except.ok.inj h]
  | s :: tmpl, paths, q, h => by
    rw [interpolateSegmentsZ_cons, except_bind_ok_iff] at h
    obtain ⟨seg, hseg, h2⟩ := h
    rw [except_bind_ok_iff] at h2
    obtain ⟨rest, hrest, h3⟩ := h2
    rw [← pure_ok_inj h3, List.map_cons, List.map_cons,
      blendHead_kind v ir e s paths seg hseg,
      Z_shape v ir e tmpl (paths.map List.tail) rest hrest]

theorem eq_close_of_kind (s : Segment) (h : kindOf s = .CLOSE) : s = .close := by
  cases s <;> simp [kindOf] at h ⊢

theorem map_kindOf_cons {p : Path} {k : SVGCommand} {ks : List SVGCommand}
    (h : p.map kindOf = k :: ks) :
    ∃ hd tl, p = hd :: tl ∧ kindOf hd = k ∧ tl.map kindOf = ks := by
  rcases List.map_eq_cons_iff.mp h with ⟨hd, tl, rfl, hk, htl⟩
  exact ⟨hd, tl, rfl, hk, htl⟩

/-- Head components of a path whose head is a Move; the `(0, 0)` default is
never used under the alignment hypotheses. -/
def moveXY (p : Path) : Vector :=
  match p.head? with
  | some (.move x y) => ⟨x, y⟩
  | _ => ⟨0, 0⟩

/-- Head components of a path whose head is a Curve; the zero default is never
used under the alignment hypotheses. -/
def curveTCC (p : Path) : CurvePoints :=
  match p.head? with
  | some (.curve _ c1 c2 t') => ⟨t', c1, c2⟩
  | _ => ⟨⟨0, 0⟩, ⟨0, 0⟩, ⟨0, 0⟩⟩

theorem gatherHeadMove_ok_of (paths : List Path)
    (h : ∀ p ∈ paths, headIs .MOVE p = true) :
    gatherHeadMove paths = .ok (paths.map moveXY) := by
  apply mapM_ok_of_forall
  intro p hp
  have hm := h p hp
  cases p with
  | nil => simp [headIs] at hm
  | cons hd tl => cases hd <;> simp_all [headIs, kindOf, moveXY]

theorem gatherHeadCurve_ok_of (paths : List Path)
    (h : ∀ p ∈ paths, headIs .CURVE p = true) :
    gatherHeadCurve paths = .ok (paths.map curveTCC) := by
  apply mapM_ok_of_forall
  intro p hp
  have hm := h p hp
  cases p with
  | nil => simp [headIs] at hm
  | cons hd tl => cases hd <;> simp_all [headIs, kindOf, curveTCC]

theorem headIs_of_shape {p : Path} {s : Segment} {tmpl : List Segment}
    (h : p.map kindOf = (s :: tmpl).map kindOf) : headIs (kindOf s) p = true := by
  rw [List.map_cons] at h
  obtain ⟨hd, tl, rfl, hk, -⟩ := map_kindOf_cons h
  simp [headIs, hk]

theorem tail_shape {p : Path} {s : Segment} {tmpl : List Segment}
    (h : p.map kindOf = (s :: tmpl).map kindOf) : p.tail.map kindOf = tmpl.map kindOf := by
  rw [List.map_cons] at h
  obtain ⟨hd, tl, rfl, -, htl⟩ := map_kindOf_cons h
  simpa using htl

/-- At or below the first breakpoint, the lockstep blend reproduces the first
path (up to the `from` placeholder on curves). -/
theorem Z_left (v i0 : ℚ) (irest : List ℚ) (e : Extrapolate) (hv : v ≤ i0) :
    ∀ (tmpl : List Segment) (paths : List Path),
      paths.head? = some tmpl →
      (∀ p ∈ paths, p.map kindOf = tmpl.map kindOf) →
      (i0 :: irest).length = paths.length →
      interpolateSegmentsZ v (i0 :: irest) e tmpl paths = .ok (tmpl.map eraseFrom)
  | [], _, _, _, _ => rfl
  | s :: tmpl, paths, hhead, hshape, hlen => by
    cases paths with
    | nil => simp at hhead
    | cons p1 ps =>
      have hp1 : p1 = s :: tmpl := by simpa using hhead
      subst hp1
      have htail : interpolateSegmentsZ v (i0 :: irest) e tmpl
          (((s :: tmpl) :: ps).map List.tail) = .ok (tmpl.map eraseFrom) := by
        apply Z_left v i0 irest e hv
        · simp
        · intro p2 hp2
          obtain ⟨p, hp, rfl⟩ := List.mem_map.mp hp2
          exact tail_shape (hshape p hp)
        · simpa using hlen
      have hlen2 : irest.length = ps.length := by simpa using hlen
      rw [interpolateSegmentsZ_cons, htail]
      cases s with
      | move x y =>
        have hgat : gatherHeadMove ((Segment.move x y :: tmpl) :: ps)
            = .ok (((Segment.move x y :: tmpl) :: ps).map moveXY) :=
          gatherHeadMove_ok_of _ fun p hp => headIs_of_shape (hshape p hp)
        have hblend : blendHead v (i0 :: irest) e (.move x y) ((Segment.move x y :: tmpl) :: ps)
            = .ok (Segment.move x y) := by
          simp only [blendHead, hgat, Except.map]
          rw [show ((Segment.move x y :: tmpl) :: ps).map moveXY
              = (⟨x, y⟩ : Vector) :: ps.map moveXY from rfl]
          rw [show ((⟨x, y⟩ : Vector) :: ps.map moveXY).map (·.x)
              = x :: (ps.map moveXY).map (·.x) from rfl]
          rw [show ((⟨x, y⟩ : Vector) :: ps.map moveXY).map (·.y)
              = y :: (ps.map moveXY).map (·.y) from rfl]
          rw [interpolate_le_head v i0 irest x _ e (by simpa using hlen2) hv,
            interpolate_le_head v i0 irest y _ e (by simpa using hlen2) hv]
        rw [hblend]
        rfl
      | curve f c1 c2 t' =>
        have hgat : gatherHeadCurve ((Segment.curve f c1 c2 t' :: tmpl) :: ps)
            = .ok (((Segment.curve f c1 c2 t' :: tmpl) :: ps).map curveTCC) :=
          gatherHeadCurve_ok_of _ fun p hp => headIs_of_shape (hshape p hp)
        have hblend : blendHead v (i0 :: irest) e (.curve f c1 c2 t')
            ((Segment.curve f c1 c2 t' :: tmpl) :: ps)
            = .ok (Segment.curve ⟨0, 0⟩ c1 c2 t') := by
          simp only [blendHead, hgat, Except.map]
          rw [show ((Segment.curve f c1 c2 t' :: tmpl) :: ps).map curveTCC
              = (⟨t', c1, c2⟩ : CurvePoints) :: ps.map curveTCC from rfl]
          rw [show ((⟨t', c1, c2⟩ : CurvePoints) :: ps.map curveTCC).map (·.c1.x)
              = c1.x :: (ps.map curveTCC).map (·.c1.x) from rfl]
          rw [show ((⟨t', c1, c2⟩ : CurvePoints) :: ps.map curveTCC).map (·.c1.y)
              = c1.y :: (ps.map curveTCC).map (·.c1.y) from rfl]
          rw [show ((⟨t', c1, c2⟩ : CurvePoints) :: ps.map curveTCC).map (·.c2.x)
              = c2.x :: (ps.map curveTCC).map (·.c2.x) from rfl]
          rw [show ((⟨t', c1, c2⟩ : CurvePoints) :: ps.map curveTCC).map (·.c2.y)
              = c2.y :: (ps.map curveTCC).map (·.c2.y) from rfl]
          rw [show ((⟨t', c1, c2⟩ : CurvePoints) :: ps.map curveTCC).map (·.to'.x)
              = t'.x :: (ps.map curveTCC).map (·.to'.x) from rfl]
          rw [show ((⟨t', c1, c2⟩ : CurvePoints) :: ps.map curveTCC).map (·.to'.y)
              = t'.y :: (ps.map curveTCC).map (·.to'.y) from rfl]
          rw [interpolate_le_head v i0 irest c1.x _ e (by simpa using hlen2) hv,
            interpolate_le_head v i0 irest c1.y _ e (by simpa using hlen2) hv,
            interpolate_le_head v i0 irest c2.x _ e (by simpa using hlen2) hv,
            interpolate_le_head v i0 irest c2.y _ e (by simpa using hlen2) hv,
            interpolate_le_head v i0 irest t'.x _ e (by simpa using hlen2) hv,
            interpolate_le_head v i0 irest t'.y _ e (by simpa using hlen2) hv]
        rw [hblend]
        rfl
      | close =>
        rw [show blendHead v (i0 :: irest) e .close ((Segment.close :: tmpl) :: ps)
            = .ok Segment.close from rfl]
        rfl

/-- At or above the last breakpoint, the lockstep blend reproduces the last
path (up to the `from` placeholder on curves). -/
theorem Z_right (v ilast : ℚ) (ir : List ℚ) (e : Extrapolate)
    (hc : List.Chain' (· < ·) ir) (hi : ir.getLast? = some ilast) (hv : ilast ≤ v) :
    ∀ (tmpl : List Segment) (paths : List Path) (pl : Path),
      (∀ p ∈ paths, p.map kindOf = tmpl.map kindOf) →
      paths.getLast? = some pl →
      ir.length = paths.length →
      interpolateSegmentsZ v ir e tmpl paths = .ok (pl.map eraseFrom)
  | [], paths, pl, hshape, hlast, _ => by
    have hpl : pl.map kindOf = ([] : List Segment).map kindOf :=
      hshape pl (mem_of_getLast?_eq_some hlast)
    have hplnil : pl = [] := by
      have h2 : pl.map kindOf = [] := by simpa using hpl
      exact List.map_eq_nil_iff.mp h2
    rw [hplnil]
    rfl
  | s :: tmpl, paths, pl, hshape, hlast, hlen => by
    have hmem : pl ∈ paths := mem_of_getLast?_eq_some hlast
    obtain ⟨hdl, tll, rfl, hkindl, htll⟩ := map_kindOf_cons (hshape pl hmem)
    have htail : interpolateSegmentsZ v ir e tmpl (paths.map List.tail)
        = .ok (tll.map eraseFrom) := by
      apply Z_right v ilast ir e hc hi hv tmpl (paths.map List.tail) tll
      · intro p2 hp2
        obtain ⟨p, hp, rfl⟩ := List.mem_map.mp hp2
        exact tail_shape (hshape p hp)
      · rw [List.getLast?_map, hlast]
        rfl
      · simpa using hlen
    have hlen2 : ir.length = paths.length := hlen
    rw [interpolateSegmentsZ_cons, htail]
    cases s with
    | move x y =>
      have hgat : gatherHeadMove paths = .ok (paths.map moveXY) :=
        gatherHeadMove_ok_of _ fun p hp => headIs_of_shape (hshape p hp)
      obtain ⟨xl, yl, hhdl⟩ : ∃ xl yl, hdl = Segment.move xl yl := by
        cases hdl <;> simp [kindOf] at hkindl ⊢
      subst hhdl
      have hblend : blendHead v ir e (.move x y) paths = .ok (Segment.move xl yl) := by
        simp only [blendHead, hgat, Except.map]
        rw [interpolate_ge_last v ilast xl e _ _ hc
            (by simp [hlen2]) hi
            (by rw [List.getLast?_map, List.getLast?_map, hlast]; rfl) hv,
          interpolate_ge_last v ilast yl e _ _ hc
            (by simp [hlen2]) hi
            (by rw [List.getLast?_map, List.getLast?_map, hlast]; rfl) hv]
      rw [hblend]
      rfl
    | curve f c1 c2 t' =>
      have hgat : gatherHeadCurve paths = .ok (paths.map curveTCC) :=
        gatherHeadCurve_ok_of _ fun p hp => headIs_of_shape (hshape p hp)
      obtain ⟨fl, c1l, c2l, tl', hhdl⟩ : ∃ fl c1l c2l tl', hdl = Segment.curve fl c1l c2l tl' := by
        cases hdl <;> simp [kindOf] at hkindl ⊢
      subst hhdl
      have hblend : blendHead v ir e (.curve f c1 c2 t') paths
          = .ok (Segment.curve ⟨0, 0⟩ c1l c2l tl') := by
        simp only [blendHead, hgat, Except.map]
        rw [interpolate_ge_last v ilast c1l.x e _ _ hc (by simp [hlen2]) hi
            (by rw [List.getLast?_map, List.getLast?_map, hlast]; rfl) hv,
          interpolate_ge_last v ilast c1l.y e _ _ hc (by simp [hlen2]) hi
            (by rw [List.getLast?_map, List.getLast?_map, hlast]; rfl) hv,
          interpolate_ge_last v ilast c2l.x e _ _ hc (by simp [hlen2]) hi
            (by rw [List.getLast?_map, List.getLast?_map, hlast]; rfl) hv,
          interpolate_ge_last v ilast c2l.y e _ _ hc (by simp [hlen2]) hi
            (by rw [List.getLast?_map, List.getLast?_map, hlast]; rfl) hv,
          interpolate_ge_last v ilast tl'.x e _ _ hc (by simp [hlen2]) hi
            (by rw [List.getLast?_map, List.getLast?_map, hlast]; rfl) hv,
          interpolate_ge_last v ilast tl'.y e _ _ hc (by simp [hlen2]) hi
            (by rw [List.getLast?_map, List.getLast?_map, hlast]; rfl) hv]
      rw [hblend]
      rfl
    | close =>
      have hhdl : hdl = Segment.close := eq_close_of_kind hdl hkindl
      subst hhdl
      rw [show blendHead v ir e .close paths = .ok Segment.close from rfl]
      rfl

/-! Invariance of the pipeline under the `from` fields of curves. -/

theorem kindOf_eraseFrom (s : Segment) : kindOf (eraseFrom s) = kindOf s := by
  cases s <;> rfl

theorem serializeSegment_eraseFrom (s : Segment) :
    serializeSegment (eraseFrom s) = serializeSegment s := by
  cases s <;> rfl

theorem serialize_congr {p q : Path} (h : p.map serializeSegment = q.map serializeSegment) :
    serialize p = serialize q := by
  unfold serialize
  rw [h]

theorem serialize_eraseFrom (p : Path) : serialize (p.map eraseFrom) = serialize p :=
  serialize_congr (by
    rw [List.map_map]
    exact List.map_congr_left fun s _ => serializeSegment_eraseFrom s)

theorem serialize_ok_iff (path : Path) : (∃ s, serialize path = .ok s) ↔ path ≠ [] := by
  cases path with
  | nil =>
    constructor
    · rintro ⟨s, hs⟩
      simp [serialize] at hs
    · intro h
      simp at h
  | cons a l =>
    constructor
    · intro _
      exact List.cons_ne_nil a l
    · intro _
      exact ⟨(l.map serializeSegment).foldl (fun acc c => acc ++ c) (serializeSegment a), rfl⟩

theorem mapM_congr_of_rel {ε α β γ : Type _} (F : α → γ) (f : α → Except ε β)
    (hf : ∀ a a2, F a = F a2 → f a = f a2) :
    ∀ l l2 : List α, l.map F = l2.map F → l.mapM f = l2.mapM f
  | [], [], _ => rfl
  | [], _ :: _, h => by simp at h
  | _ :: _, [], h => by simp at h
  | a :: l, a2 :: l2, h => by
    rw [List.map_cons, List.map_cons] at h
    injection h with h1 h2
    rw [List.mapM_cons, List.mapM_cons, hf a a2 h1, mapM_congr_of_rel F f hf l l2 h2]

theorem gatherHeadMove_congr (paths paths2 : List Path)
    (h : paths.map (List.map eraseFrom) = paths2.map (List.map eraseFrom)) :
    gatherHeadMove paths = gatherHeadMove paths2 := by
  rw [gatherHeadMove, gatherHeadMove]
  apply mapM_congr_of_rel (List.map eraseFrom) _ _ paths paths2 h
  intro p p2 hp
  cases p with
  | nil =>
    cases p2 with
    | nil => rfl
    | cons hd2 tl2 => simp at hp
  | cons hd tl =>
    cases p2 with
    | nil => simp at hp
    | cons hd2 tl2 =>
      rw [List.map_cons, List.map_cons] at hp
      injection hp with hh ht
      cases hd <;> cases hd2 <;> simp_all [eraseFrom]

theorem gatherHeadCurve_congr (paths paths2 : List Path)
    (h : paths.map (List.map eraseFrom) = paths2.map (List.map eraseFrom)) :
    gatherHeadCurve paths = gatherHeadCurve paths2 := by
  rw [gatherHeadCurve, gatherHeadCurve]
  apply mapM_congr_of_rel (List.map eraseFrom) _ _ paths paths2 h
  intro p p2 hp
  cases p with
  | nil =>
    cases p2 with
    | nil => rfl
    | cons hd2 tl2 => simp at hp
  | cons hd tl =>
    cases p2 with
    | nil => simp at hp
    | cons hd2 tl2 =>
      rw [List.map_cons, List.map_cons] at hp
      injection hp with hh ht
      cases hd <;> cases hd2 <;> simp_all [eraseFrom]

theorem Z_eraseFrom_congr (v : ℚ) (ir : List ℚ) (e : Extrapolate) :
    ∀ (tmpl tmpl2 : List Segment) (paths paths2 : List Path),
      tmpl.map eraseFrom = tmpl2.map eraseFrom →
      paths.map (List.map eraseFrom) = paths2.map (List.map eraseFrom) →
      interpolateSegmentsZ v ir e tmpl paths = interpolateSegmentsZ v ir e tmpl2 paths2
  | [], [], _, _, _, _ => rfl
  | [], _ :: _, _, _, h, _ => by simp at h
  | _ :: _, [], _, _, h, _ => by simp at h
  | s :: tmpl, s2 :: tmpl2, paths, paths2, h, hp => by
    rw [List.map_cons, List.map_cons] at h
    injection h with h1 h2
    have htails : (paths.map List.tail).map (List.map eraseFrom)
        = (paths2.map List.tail).map (List.map eraseFrom) := by
      have hcomm : ∀ q : List Path,
          (q.map List.tail).map (List.map eraseFrom)
            = (q.map (List.map eraseFrom)).map List.tail := by
        intro q
        rw [List.map_map, List.map_map]
        exact List.map_congr_left fun p _ => List.map_tail eraseFrom p
      rw [hcomm paths, hcomm paths2, hp]
    have hrest := Z_eraseFrom_congr v ir e tmpl tmpl2
      (paths.map List.tail) (paths2.map List.tail) h2 htails
    rw [interpolateSegmentsZ_cons, interpolateSegmentsZ_cons, hrest]
    have hblend : blendHead v ir e s paths = blendHead v ir e s2 paths2 := by
      cases s with
      | move x y =>
        cases s2 with
        | move x2 y2 =>
          simp only [blendHead]
          rw [gatherHeadMove_congr paths paths2 hp]
        | curve f2 c12 c22 t2 => simp [eraseFrom] at h1
        | close => simp [eraseFrom] at h1
      | curve f c1 c2 t' =>
        cases s2 with
        | move _ _ => simp [eraseFrom] at h1
        | curve f2 c12 c22 t2 =>
          simp only [blendHead]
          rw [gatherHeadCurve_congr paths paths2 hp]
        | close => simp [eraseFrom] at h1
      | close =>
        cases s2 with
        | move _ _ => simp [eraseFrom] at h1
        | curve _ _ _ _ => simp [eraseFrom] at h1
        | close => rfl
    rw [hblend]

/-! Token structure of the serializer output. -/

theorem foldl_append_eq : ∀ (l : List String) (a : String),
    l.foldl (fun acc c => acc ++ c) a = a ++ String.join l
  | [], a => (String.append_empty a).symm
  | b :: l, a => by
    have hjoin : String.join (b :: l) = b ++ String.join l := by
      show List.foldl (fun r s => r ++ s) ("" ++ b) l = _
      rw [String.empty_append]
      exact foldl_append_eq l b
    rw [List.foldl_cons, foldl_append_eq l (a ++ b), hjoin, String.append_assoc]

theorem join_cons (b : String) (l : List String) :
    String.join (b :: l) = b ++ String.join l := by
  show List.foldl (fun r s => r ++ s) ("" ++ b) l = _
  rw [String.empty_append]
  exact foldl_append_eq l b

theorem serialize_join (a : Segment) (l : List Segment) :
    serialize (a :: l) = .ok (String.join ((a :: l).map serializeSegment)) := by
  show Except.ok ((l.map serializeSegment).foldl (fun acc c => acc ++ c) (serializeSegment a)) = _
  rw [foldl_append_eq, List.map_cons, join_cons]

theorem join_data_mem : ∀ (l : List String) (c : Char),
    c ∈ (String.join l).data → ∃ t ∈ l, c ∈ t.data
  | [], _, hc => by simp [show String.join [] = "" from rfl] at hc
  | b :: l, c, hc => by
    rw [join_cons, String.data_append] at hc
    rcases List.mem_append.mp hc with h | h
    · exact ⟨b, List.mem_cons_self b l, h⟩
    · obtain ⟨t, ht, hct⟩ := join_data_mem l c h
      exact ⟨t, List.mem_cons_of_mem b ht, hct⟩

/-- The ten decimal digit characters. -/
def decimalChars : List Char :=
  ['0', '1', '2', '3', '4', '5', '6', '7', '8', '9']

/-- Characters that can appear in the textual form of a rational number. -/
def ratChars : List Char :=
  '-' :: '/' :: decimalChars

/-- Characters that can appear in a serialized path: the three command letters,
the separators, and number characters. -/
def tokenChars : List Char :=
  'M' :: 'C' :: 'Z' :: ',' :: ' ' :: ratChars

theorem digitChar_mem (m : Nat) (h : m < 10) : Nat.digitChar m ∈ decimalChars := by
  interval_cases m <;> decide

theorem toDigitsCore_mem : ∀ (fuel n : Nat) (ds : List Char),
    (∀ c ∈ ds, c ∈ decimalChars) → ∀ c ∈ Nat.toDigitsCore 10 fuel n ds, c ∈ decimalChars
  | 0, _, _, hds, c, hc => hds c hc
  | fuel + 1, n, ds, hds, c, hc => by
    rw [Nat.toDigitsCore] at hc
    have hcons : ∀ c2 ∈ Nat.digitChar (n % 10) :: ds, c2 ∈ decimalChars := by
      intro c2 hc2
      rcases List.mem_cons.mp hc2 with h | h
      · rw [h]
        exact digitChar_mem (n % 10) (Nat.mod_lt n (by norm_num))
      · exact hds c2 h
    by_cases h10 : n / 10 = 0
    · rw [if_pos h10] at hc
      exact hcons c hc
    · rw [if_neg h10] at hc
      exact toDigitsCore_mem fuel (n / 10) (Nat.digitChar (n % 10) :: ds) hcons c hc

theorem natRepr_chars (n : Nat) : ∀ c ∈ (Nat.repr n).data, c ∈ decimalChars := by
  intro c hc
  rw [show (Nat.repr n).data = Nat.toDigits 10 n from rfl, Nat.toDigits] at hc
  exact toDigitsCore_mem (n + 1) n [] (by intro c2 hc2; simp at hc2) c hc

theorem intToString_chars (i : Int) : ∀ c ∈ (toString i).data, c = '-' ∨ c ∈ decimalChars := by
  cases i with
  | ofNat m =>
    intro c hc
    rw [show (toString (Int.ofNat m)).data = (Nat.repr m).data from rfl] at hc
    exact Or.inr (natRepr_chars m c hc)
  | negSucc m =>
    intro c hc
    rw [show (toString (Int.negSucc m)).data = ("-" ++ toString (m + 1) : String).data from rfl,
      String.data_append,
      show (("-" : String)).data = ['-'] from rfl] at hc
    rcases List.mem_append.mp hc with h | h
    · exact Or.inl (by simpa using h)
    · exact Or.inr (natRepr_chars (m + 1) c
        (by rwa [show (toString (m + 1)).data = (Nat.repr (m + 1)).data from rfl] at h))

theorem ratToString_chars (q : ℚ) : ∀ c ∈ (toString q).data, c ∈ ratChars := by
  intro c hc
  rw [show toString q = (if q.den = 1 then toString q.num
      else toString "" ++ toString q.num ++ toString "/" ++ toString q.den ++ toString "")
    from rfl] at hc
  by_cases hden : q.den = 1
  · rw [if_pos hden] at hc
    rcases intToString_chars q.num c hc with h | h
    · rw [h]
      decide
    · exact List.mem_cons_of_mem _ (List.mem_cons_of_mem _ h)
  · rw [if_neg hden, String.data_append, String.data_append, String.data_append,
      String.data_append,
      show ((toString ("" : String))).data = ([] : List Char) from rfl,
      show ((toString ("/" : String))).data = ['/'] from rfl,
      show (toString q.den).data = (Nat.repr q.den).data from rfl] at hc
    rcases List.mem_append.mp hc with h | h
    · rcases List.mem_append.mp h with h2 | h2
      · rcases List.mem_append.mp h2 with h3 | h3
        · rcases List.mem_append.mp h3 with h4 | h4
          · simp at h4
          · rcases intToString_chars q.num c h4 with h5 | h5
            · rw [h5]
              decide
            · exact List.mem_cons_of_mem _ (List.mem_cons_of_mem _ h5)
        · have : c = '/' := by simpa using h3
          rw [this]
          decide
      · exact List.mem_cons_of_mem _ (List.mem_cons_of_mem _ (natRepr_chars q.den c h2))
    · simp at h

theorem serializeSegment_chars (s : Segment) :
    ∀ c ∈ (serializeSegment s).data, c ∈ tokenChars := by
  have hrat : ∀ r : ℚ, ∀ c ∈ (toString r).data, c ∈ tokenChars := by
    intro r c hc
    have := ratToString_chars r c hc
    simp only [tokenChars]
    exact List.mem_cons_of_mem _ (List.mem_cons_of_mem _ (List.mem_cons_of_mem _
      (List.mem_cons_of_mem _ (List.mem_cons_of_mem _ this))))
  cases s with
  | move x y =>
    intro c hc
    rw [show serializeSegment (.move x y) = serializeMove x y from rfl, serializeMove,
      String.data_append, String.data_append, String.data_append, String.data_append,
      show (("M" : String)).data = ['M'] from rfl,
      show ((("," : String))).data = [','] from rfl,
      show (((" " : String))).data = [' '] from rfl] at hc
    rcases List.mem_append.mp hc with h | h
    · rcases List.mem_append.mp h with h2 | h2
      · rcases List.mem_append.mp h2 with h3 | h3
        · rcases List.mem_append.mp h3 with h4 | h4
          · rw [show c = 'M' by simpa using h4]
            decide
          · exact hrat x c h4
        · rw [show c = ',' by simpa using h3]
          decide
      · exact hrat y c h2
    · rw [show c = ' ' by simpa using h]
      decide
  | curve f c1 c2 t' =>
    intro c hc
    rw [show serializeSegment (.curve f c1 c2 t') = serializeCurve c1 c2 t' from rfl,
      serializeCurve,
      String.data_append, String.data_append, String.data_append, String.data_append,
      String.data_append, String.data_append, String.data_append, String.data_append,
      String.data_append, String.data_append, String.data_append, String.data_append,
      show (("C" : String)).data = ['C'] from rfl,
      show ((("," : String))).data = [','] from rfl,
      show (((" " : String))).data = [' '] from rfl] at hc
    have hcomma : (',' : Char) ∈ tokenChars := by decide
    have hspace : (' ' : Char) ∈ tokenChars := by decide
    rcases List.mem_append.mp hc with h | h
    case _ =>
      rcases List.mem_append.mp h with h | h
      case _ =>
        rcases List.mem_append.mp h with h | h
        case _ =>
          rcases List.mem_append.mp h with h | h
          case _ =>
            rcases List.mem_append.mp h with h | h
            case _ =>
              rcases List.mem_append.mp h with h | h
              case _ =>
                rcases List.mem_append.mp h with h | h
                case _ =>
                  rcases List.mem_append.mp h with h | h
                  case _ =>
                    rcases List.mem_append.mp h with h | h
                    case _ =>
                      rcases List.mem_append.mp h with h | h
                      case _ =>
                        rcases List.mem_append.mp h with h | h
                        case _ =>
                          rcases List.mem_append.mp h with h | h
                          case _ =>
                            rw [show c = 'C' by simpa using h]
                            decide
                          case _ => exact hrat c1.x c h
                        case _ =>
                          rw [show c = ',' by simpa using h]
                          decide
                      case _ => exact hrat c1.y c h
                    case _ =>
                      rw [show c = ' ' by simpa using h]
                      decide
                  case _ => exact hrat c2.x c h
                case _ =>
                  rw [show c = ',' by simpa using h]
                  decide
              case _ => exact hrat c2.y c h
            case _ =>
              rw [show c = ' ' by simpa using h]
              decide
          case _ => exact hrat t'.x c h
        case _ =>
          rw [show c = ',' by simpa using h]
          decide
      case _ => exact hrat t'.y c h
    case _ =>
      rw [show c = ' ' by simpa using h]
      decide
  | close =>
    intro c hc
    rw [show (serializeSegment .close).data = ['Z'] from rfl] at hc
    rw [show c = 'Z' by simpa using hc]
    decide

theorem tokenChars_alpha : ∀ c ∈ tokenChars, c.isAlpha = true → c = 'M' ∨ c = 'C' ∨ c = 'Z' := by
  decide

/-! Claim theorems. -/

theorem interpolateSegments_shape (v : ℚ) (ir : List ℚ) (e : Extrapolate)
    (p0 : Path) (ps : List Path) (q : Path)
    (h : interpolateSegments v ir (p0 :: ps) e = .ok q) : q.map kindOf = p0.map kindOf := by
  rw [interpolateSegments_eq_Z] at h
  exact Z_shape v ir e p0 (p0 :: ps) q h

theorem option_kind_close {o : Option Segment}
    (h : o.map kindOf = some SVGCommand.CLOSE) : o = some Segment.close := by
  cases o with
  | none => simp at h
  | some s =>
    simp only [Option.map_some'] at h
    rw [eq_close_of_kind s (Option.some.inj h)]

/-- C1 counterexample: the claim says a length mismatch or a kind mismatch must
raise the `AsymmetricPaths` error and return no result; here the two paths
differ in length (1 against 3) and in kind at index 0 (Close against Move), yet
the call succeeds and returns the blended string `"Z"`. -/
theorem interpolatePath_asymmetric_counterexample :
    interpolatePath 0 [0, 1]
      [[Segment.close], [Segment.move 0 0, Segment.close, Segment.close]] .clamp
      = .ok "Z" := by
  decide

/-- C1 amended: `interpolatePath` over `p0 :: ps` returns a result exactly when
`p0` is non-empty and every input path is aligned with `p0` in the weak sense
the code actually checks: wherever `p0` has a Move or Curve, the other path has
a present segment of the same kind at the same index; a Close in `p0` is passed
through without looking at the other paths, and segments of other paths beyond
`p0`'s length are ignored.  Otherwise the call fails with an error (the
`AsymmetricPaths` error for a present-but-mismatched segment, the `TypeError`
of an undefined access for a missing one or an empty `p0`) and returns no
partially blended result. -/
theorem interpolatePath_ok_iff_aligned (value : ℚ) (inputRange : List ℚ)
    (e : Extrapolate) (p0 : Path) (ps : List Path) :
    (∃ s, interpolatePath value inputRange (p0 :: ps) e = .ok s) ↔
      (p0 ≠ [] ∧ ∀ p ∈ p0 :: ps, alignedB p0 p = true) := by
  constructor
  · rintro ⟨s, hs⟩
    rw [show interpolatePath value inputRange (p0 :: ps) e
        = interpolateSegments value inputRange (p0 :: ps) e >>= serialize from rfl] at hs
    rw [except_bind_ok_iff] at hs
    obtain ⟨q, hq, hser⟩ := hs
    constructor
    · have hqne : q ≠ [] := (serialize_ok_iff q).mp ⟨s, hser⟩
      have hshape := interpolateSegments_shape value inputRange e p0 ps q hq
      intro hp0
      rw [hp0] at hshape
      simp only [List.map_nil, List.map_eq_nil_iff] at hshape
      exact hqne hshape
    · rw [interpolateSegments_eq_Z] at hq
      exact (Z_ok_iff value inputRange e p0 (p0 :: ps)).mp ⟨q, hq⟩
  · rintro ⟨hne, hal⟩
    obtain ⟨q, hq⟩ := (Z_ok_iff value inputRange e p0 (p0 :: ps)).mpr hal
    have hshape := Z_shape value inputRange e p0 (p0 :: ps) q hq
    have hqne : q ≠ [] := by
      intro h
      rw [h] at hshape
      exact hne (List.map_eq_nil_iff.mp hshape.symm)
    obtain ⟨s, hs⟩ := (serialize_ok_iff q).mpr hqne
    refine ⟨s, ?_⟩
    rw [show interpolatePath value inputRange (p0 :: ps) e
        = interpolateSegments value inputRange (p0 :: ps) e >>= serialize from rfl,
      interpolateSegments_eq_Z, hq]
    exact hs

theorem interpolatePath_ok_iff_aligned_witness :
    ∃ s, interpolatePath 0 [0, 1] [[Segment.move 0 0], [Segment.move 2 2]] .clamp = .ok s :=
  (interpolatePath_ok_iff_aligned 0 [0, 1] .clamp [Segment.move 0 0]
    [[Segment.move 2 2]]).mpr ⟨by decide, by decide⟩

/-- C2 counterexample: a cubic directly preceded by a Close with no intervening
Move does not raise any `MalformedPathSequence`-style error; `parse` silently
defaults the reconstructed `from` to `(0, 0)` and succeeds. -/
theorem parse_close_predecessor_counterexample :
    parse [.Z, .C 1 2 3 4 5 6]
      = .ok [Segment.close, Segment.curve ⟨0, 0⟩ ⟨1, 2⟩ ⟨3, 4⟩ ⟨5, 6⟩] := by
  decide

/-- C2 amended: for every cubic command in the normalized list, the
reconstructed `from` is the predecessor Move's point when the predecessor is a
Move, the predecessor cubic's endpoint when it is a cubic, and silently
`(0, 0)` when it is a Close (`fromOfPrev`); when the cubic is the very first
command, `parse` fails with the `TypeError` of the undefined predecessor access
rather than defaulting to `(0, 0)`. -/
theorem parse_from_reconstruction (pre rest : List SVGNormCommand)
    (c1x c1y c2x c2y x y : ℚ) :
    (pre = [] → parse (pre ++ .C c1x c1y c2x c2y x y :: rest) = .error .undefinedAccess) ∧
    (∀ path, parse (pre ++ .C c1x c1y c2x c2y x y :: rest) = .ok path →
      ∀ prev pre2, pre = pre2 ++ [prev] →
        path[pre.length]? = some (.curve (fromOfPrev prev) ⟨c1x, c1y⟩ ⟨c2x, c2y⟩ ⟨x, y⟩)) := by
  constructor
  · rintro rfl
    rw [List.nil_append, parse_eq_parseGo]
    exact parseGo_first_curve c1x c1y c2x c2y x y rest
  · intro path hok prev pre2 hpre
    rw [parse_eq_parseGo] at hok
    obtain ⟨fr, hfr, hidx⟩ := parseGo_from pre none c1x c1y c2x c2y x y rest path hok
    have hlast : pre.getLast? = some prev := by
      rw [hpre]
      exact List.getLast?_concat pre2
    rw [hlast] at hfr
    rw [show (match some prev with
        | some p => some p
        | none => (none : Option SVGNormCommand)) = some prev from rfl] at hfr
    rw [parseFrom_some] at hfr
    rw [← Except.ok.inj hfr] at hidx
    exact hidx

theorem parse_from_reconstruction_witness :
    ([Segment.close, Segment.curve ⟨0, 0⟩ ⟨1, 2⟩ ⟨3, 4⟩ ⟨5, 6⟩] : Path)[[SVGNormCommand.Z].length]?
      = some (.curve (fromOfPrev .Z) ⟨1, 2⟩ ⟨3, 4⟩ ⟨5, 6⟩) :=
  (parse_from_reconstruction [.Z] [] 1 2 3 4 5 6).2
    [Segment.close, Segment.curve ⟨0, 0⟩ ⟨1, 2⟩ ⟨3, 4⟩ ⟨5, 6⟩] (by decide) .Z [] rfl

/-- C3 (code bug): with no Curve segment bracketing `x`, the source evaluates
`isCurve(p[0])` with `p[0] === undefined` and throws a `TypeError` instead of
reaching the `return 0` fallback line; this happens in particular for a Path
containing no Curve segments at all, and for the empty Path. -/
theorem getYForX_no_bracket_typeError :
    getYForX [Segment.move 0 0] 0 = .error .undefinedAccess ∧
    getYForX [] 0 = .error .undefinedAccess := by
  constructor
  · decide
  · decide

/-- C4: with the spec-modelled solver, if the first Curve bracketing the query
`x` is `curve f c1 c2 t`, then a query exactly at `f.x` returns `f.y` exactly,
a query exactly at `t.x` over a non-degenerate span returns `t.y` exactly, and
a degenerate curve with `f.x = t.x` (selected only when `x` equals that common
abscissa) is answered by the immediate boundary return `f.y` without reaching
the Newton iteration. -/
theorem getYForX_endpoint_exact (path : Path) (x : ℚ) (f c1 c2 t : Vector)
    (hsel : (path.filter (bracketFilter x)).head? = some (.curve f c1 c2 t)) :
    (x = f.x → getYForX path x = .ok f.y) ∧
    (x = t.x → f.x ≠ t.x → getYForX path x = .ok t.y) ∧
    (f.x = t.x → getYForX path x = .ok f.y) := by
  have hget : (path.filter (bracketFilter x))[0]? = some (Segment.curve f c1 c2 t) := by
    rw [← List.head?_eq_getElem?]
    exact hsel
  have hrun : getYForX path x = .ok (cubicBezierYForX x f c1 c2 t) := by
    unfold getYForX
    simp only [hget]
  refine ⟨?_, ?_, ?_⟩
  · intro hx
    rw [hrun, cubicBezierYForX, if_pos hx]
  · intro hx hne
    have hnf : ¬ x = f.x := by
      intro h
      exact hne (h ▸ hx ▸ rfl)
    rw [hrun, cubicBezierYForX, if_neg hnf, if_pos hx]
  · intro hdeg
    have hmem : Segment.curve f c1 c2 t ∈ path.filter (bracketFilter x) := by
      cases hfil : path.filter (bracketFilter x) with
      | nil => rw [hfil] at hsel; simp at hsel
      | cons a l2 =>
        rw [hfil] at hsel
        rw [List.head?_cons] at hsel
        rw [← Option.some.inj hsel]
        exact List.mem_cons_self a l2
    have hbr : bracketFilter x (Segment.curve f c1 c2 t) = true :=
      List.of_mem_filter hmem
    have hx : x = f.x := by
      simp only [bracketFilter] at hbr
      rw [if_neg (by rw [hdeg]; exact lt_irrefl t.x)] at hbr
      simp only [Bool.and_eq_true, decide_eq_true_eq, ge_iff_le] at hbr
      exact le_antisymm (hdeg ▸ hbr.2) hbr.1
    rw [hrun, cubicBezierYForX, if_pos hx]

theorem getYForX_endpoint_exact_witness :
    getYForX [Segment.curve ⟨0, 0⟩ ⟨1, 1⟩ ⟨2, 2⟩ ⟨3, 3⟩] 0 = .ok 0 :=
  (getYForX_endpoint_exact [Segment.curve ⟨0, 0⟩ ⟨1, 1⟩ ⟨2, 2⟩ ⟨3, 3⟩] 0
    ⟨0, 0⟩ ⟨1, 1⟩ ⟨2, 2⟩ ⟨3, 3⟩ (by decide)).1 rfl

/-- C5: for every non-empty Path, `serialize` terminates with a success and
returns the in-order concatenation of exactly one token per segment; the token
of a Move is `M{x},{y} `, that of a Curve is
`C{c1.x},{c1.y} {c2.x},{c2.y} {to.x},{to.y} ` (only control points and
endpoint, never the `from` point), that of a Close is `Z`; and no letter other
than `M`, `C`, `Z` appears anywhere in the output, so no other command letter
can appear. -/
theorem serialize_tokens (path : Path) (hne : path ≠ []) :
    ∃ s, serialize path = .ok s ∧
      s = String.join (path.map serializeSegment) ∧
      (∀ x y : ℚ, serializeSegment (.move x y)
          = "M" ++ toString x ++ "," ++ toString y ++ " ") ∧
      (∀ f c1 c2 t' : Vector, serializeSegment (.curve f c1 c2 t')
          = "C" ++ toString c1.x ++ "," ++ toString c1.y ++ " "
            ++ toString c2.x ++ "," ++ toString c2.y ++ " "
            ++ toString t'.x ++ "," ++ toString t'.y ++ " ") ∧
      serializeSegment .close = "Z" ∧
      ∀ c ∈ s.data, c.isAlpha = true → c = 'M' ∨ c = 'C' ∨ c = 'Z' := by
  cases path with
  | nil => exact absurd rfl hne
  | cons a l =>
    refine ⟨String.join ((a :: l).map serializeSegment), serialize_join a l, rfl,
      fun _ _ => rfl, fun _ _ _ _ => rfl, rfl, ?_⟩
    intro c hc halpha
    obtain ⟨t, ht, hct⟩ := join_data_mem _ c hc
    obtain ⟨seg, hseg, rfl⟩ := List.mem_map.mp ht
    exact tokenChars_alpha c (serializeSegment_chars seg c hct) halpha

theorem serialize_tokens_witness :
    ∃ s, serialize [Segment.move 1 2] = .ok s :=
  (serialize_tokens [Segment.move 1 2] (by decide)).imp fun s h => h.1

/-- C6: `serialize` on the empty Path fails with the `EmptyPath` error (the
reduce-of-empty-array `TypeError`); it never silently returns a string, in
particular not the empty string. -/
theorem serialize_empty_error :
    serialize [] = .error .emptyPath ∧ ∀ s : String, serialize [] ≠ .ok s := by
  refine ⟨rfl, ?_⟩
  intro s h
  rw [show serialize [] = .error .emptyPath from rfl] at h
  exact absurd h (by simp)

/-- C7: under clamp extrapolation, with a strictly ascending `inputRange` of
the same length as the list of structurally identical paths, evaluation at the
first breakpoint (or below it) reproduces the serialization of the first path
exactly, and evaluation at the last breakpoint (or above it) reproduces the
serialization of the last path exactly: out-of-range values are pinned to the
nearest boundary output. -/
theorem interpolatePath_clamp_boundaries (i0 ilast : ℚ) (irest : List ℚ)
    (p0 plast : Path) (ps : List Path) (e : Extrapolate)
    (hasc : List.Chain' (· < ·) (i0 :: irest))
    (hlen : (i0 :: irest).length = (p0 :: ps).length)
    (hsym : ∀ p ∈ p0 :: ps, p.map kindOf = p0.map kindOf)
    (hlast : (p0 :: ps).getLast? = some plast)
    (hilast : (i0 :: irest).getLast? = some ilast) :
    (∀ value : ℚ, value ≤ i0 →
      interpolatePath value (i0 :: irest) (p0 :: ps) e = serialize p0) ∧
    (∀ value : ℚ, ilast ≤ value →
      interpolatePath value (i0 :: irest) (p0 :: ps) e = serialize plast) := by
  constructor
  · intro value hv
    have hz := Z_left value i0 irest e hv p0 (p0 :: ps) (by simp) hsym hlen
    rw [show interpolatePath value (i0 :: irest) (p0 :: ps) e
        = interpolateSegments value (i0 :: irest) (p0 :: ps) e >>= serialize from rfl,
      interpolateSegments_eq_Z, hz]
    exact serialize_eraseFrom p0
  · intro value hv
    have hz := Z_right value ilast (i0 :: irest) e hasc hilast hv p0 (p0 :: ps) plast
      hsym hlast hlen
    rw [show interpolatePath value (i0 :: irest) (p0 :: ps) e
        = interpolateSegments value (i0 :: irest) (p0 :: ps) e >>= serialize from rfl,
      interpolateSegments_eq_Z, hz]
    exact serialize_eraseFrom plast

theorem interpolatePath_clamp_boundaries_witness :
    interpolatePath 0 [0, 1] [[Segment.move 1 2], [Segment.move 3 4]] .clamp
      = serialize [Segment.move 1 2] :=
  (interpolatePath_clamp_boundaries 0 1 [1] [Segment.move 1 2] [Segment.move 3 4]
    [[Segment.move 3 4]] .clamp
    (List.chain'_cons.mpr ⟨by norm_num, List.chain'_singleton 1⟩)
    (by decide) (by decide) (by decide) (by decide)).1 0 le_rfl

/-- C8: a Close segment of the template path is passed through unchanged with
no numeric blending: every index where the first path holds a Close holds a
Close in the blended path, and in particular a template ending in Close yields
a blend ending in Close, regardless of `value`. -/
theorem interpolate_close_passthrough (value : ℚ) (inputRange : List ℚ) (e : Extrapolate)
    (p0 : Path) (ps : List Path) (q : Path)
    (hok : interpolateSegments value inputRange (p0 :: ps) e = .ok q) :
    (∀ i : Nat, p0[i]? = some Segment.close → q[i]? = some Segment.close) ∧
    (p0.getLast? = some Segment.close → q.getLast? = some Segment.close) := by
  have hshape := interpolateSegments_shape value inputRange e p0 ps q hok
  constructor
  · intro i hi
    have hmap := congrArg (fun l => l[i]?) hshape
    simp only [List.getElem?_map] at hmap
    rw [hi] at hmap
    exact option_kind_close (by rw [hmap]; rfl)
  · intro hlast2
    have hmap := congrArg (fun l => l.getLast?) hshape
    simp only [List.getLast?_map] at hmap
    rw [hlast2] at hmap
    exact option_kind_close (by rw [hmap]; rfl)

theorem interpolate_close_passthrough_witness :
    (([Segment.close] : Path))[(0 : Nat)]? = some Segment.close :=
  (interpolate_close_passthrough 0 [0, 1] .clamp [Segment.close] [[Segment.close]]
    [Segment.close] (by decide)).1 0 (by decide)

/-- C9: `mixPath` is exactly `interpolatePath` with `inputRange = [0, 1]` over
the two paths, for every value, pair of paths, and extrapolation setting; in
particular the midpoint of two single Moves at `(0, 0)` and `(10, 10)`
serializes to `"M5,5 "`. -/
theorem mixPath_eq_interpolatePath :
    (∀ (value : ℚ) (p1 p2 : Path) (e : Extrapolate),
      mixPath value p1 p2 e = interpolatePath value [0, 1] [p1, p2] e) ∧
    mixPath (1 / 2) [Segment.move 0 0] [Segment.move 10 10] .clamp = .ok "M5,5 " := by
  constructor
  · intro value p1 p2 e
    rfl
  · have h : interpolate (1 / 2 : ℚ) [0, 1] [0, 10] .clamp = 5 := by
      norm_num [interpolate, interp1]
    have hs : mixPath (1 / 2 : ℚ) [Segment.move 0 0] [Segment.move 10 10] .clamp
        = serialize [Segment.move (interpolate (1 / 2) [0, 1] [0, 10] .clamp)
            (interpolate (1 / 2) [0, 1] [0, 10] .clamp)] := rfl
    rw [hs, h]
    decide

/-- C10: the serialized output never depends on any Curve's `from` field: two
paths (or two path families) that agree after erasing `from` fields give
identical `serialize` output and identical `interpolatePath` output for every
value, input range, and extrapolation setting. -/
theorem output_independent_of_from :
    (∀ p p2 : Path, p.map eraseFrom = p2.map eraseFrom → serialize p = serialize p2) ∧
    (∀ paths paths2 : List Path,
      paths.map (List.map eraseFrom) = paths2.map (List.map eraseFrom) →
      ∀ (value : ℚ) (inputRange : List ℚ) (e : Extrapolate),
        interpolatePath value inputRange paths e
          = interpolatePath value inputRange paths2 e) := by
  constructor
  · intro p p2 h
    calc serialize p = serialize (p.map eraseFrom) := (serialize_eraseFrom p).symm
      _ = serialize (p2.map eraseFrom) := by rw [h]
      _ = serialize p2 := serialize_eraseFrom p2
  · intro paths paths2 h value ir e
    cases paths with
    | nil =>
      cases paths2 with
      | nil => rfl
      | cons q0 qs => simp at h
    | cons p0 ps =>
      cases paths2 with
      | nil => simp at h
      | cons q0 qs =>
        rw [List.map_cons, List.map_cons] at h
        injection h with h1 h2
        have hz := Z_eraseFrom_congr value ir e p0 q0 (p0 :: ps) (q0 :: qs) h1
          (by rw [List.map_cons, List.map_cons, h1, h2])
        rw [show interpolatePath value ir (p0 :: ps) e
            = interpolateSegments value ir (p0 :: ps) e >>= serialize from rfl,
          show interpolatePath value ir (q0 :: qs) e
            = interpolateSegments value ir (q0 :: qs) e >>= serialize from rfl,
          interpolateSegments_eq_Z, interpolateSegments_eq_Z, hz]

theorem output_independent_of_from_witness :
    interpolatePath 0 [0, 1] [[Segment.curve ⟨9, 9⟩ ⟨1, 1⟩ ⟨2, 2⟩ ⟨3, 3⟩]] .clamp
      = interpolatePath 0 [0, 1] [[Segment.curve ⟨7, 7⟩ ⟨1, 1⟩ ⟨2, 2⟩ ⟨3, 3⟩]] .clamp :=
  output_independent_of_from.2 [[Segment.curve ⟨9, 9⟩ ⟨1, 1⟩ ⟨2, 2⟩ ⟨3, 3⟩]]
    [[Segment.curve ⟨7, 7⟩ ⟨1, 1⟩ ⟨2, 2⟩ ⟨3, 3⟩]] (by decide) 0 [0, 1] .clamp

end Redash
